import Mathlib

/-!
Verification of waybackurls: the fetch-and-merge pipeline of `main.go`

A shallow embedding of `main.go` and the properties of its query construction,
row decoding, per-domain deduplication and error handling.

Conventions of the embedding.

* Go `string` is `String`; Go `int` is `Int`.
* A call of a `fetchFn` either returns the Go pair `([]wurl, error)` or stops
  with a run-time panic (index out of range); `FetchResult` has one
  constructor for each.
* Everything outside the process (the clock, the HTTP service, the decoding
  done by `encoding/json`) is a field of `World`, so that a property proved
  for every `World` holds whatever the service answers.
* `isSubdomain` and `getVersions` are called by `main` but are not part of
  `main.go`; they are parameters of the functions that call them.
-/

set_option maxRecDepth 8000

namespace Waybackurls

/-! ## Data model (main.go 112-117) -/

/-- The record `wurl` of main.go 112-115. -/
structure wurl where
  date : String
  url : String
  deriving DecidableEq

/-- What a call of a `fetchFn` (main.go 117) produces: the returned pair
`([]wurl, error)`, or an index-out-of-range panic carrying the index and the
length of the indexed slice. -/
inductive FetchResult where
  | ret (out : List wurl) (err : Option String)
  | fault (index : Nat) (length : Nat)
  deriving DecidableEq

/-! ## The consumer loop of `main` (main.go 99-107) -/

/-- The Go map `seen` of main.go 99, as a finite map given by its lookup. -/
abbrev SeenMap := String → Option Bool

/-- The value `make(map[string]bool)`. -/
def emptySeen : SeenMap := fun _ => none

/-- The assignment `seen[k] = true`. -/
def SeenMap.set (seen : SeenMap) (k : String) : SeenMap :=
  fun k' => if k' = k then some true else seen k'

/-- The loop `for w := range wurls` of main.go 100-107, run on the records
received from the channel in order; the result is the list of arguments of
`fmt.Println`, in the order of the calls. -/
def consumerLoop : SeenMap → List wurl → List String
  | _, [] => []
  | seen, w :: ws =>
    if (seen w.url).isSome then
      consumerLoop seen ws
    else
      w.url :: consumerLoop (seen.set w.url) ws

/-- The distinct elements of a list, each at the place of its first
occurrence: the head is kept and removed from what follows. -/
def firstSeen : List String → List String
  | [] => []
  | u :: us => u :: (firstSeen us).filter (fun v => v ≠ u)

/-! ## The outside world -/

/-- A calendar date, as returned by `time.Time.Date()`. -/
structure Date where
  year : Int
  month : Nat
  day : Nat
  deriving DecidableEq

/-- The value returned by `http.Get` when it does not fail: the status code
and what `ioutil.ReadAll(res.Body)` yields, the bytes read or a read error. -/
structure Response where
  status : Nat
  body : Except String String

/-- Everything `main.go` obtains from outside the process: `time.Now()`,
`http.Get` (the response, or the error of a failed request), and
`json.Unmarshal` into a `[][]string` (the decoded value left in `wrapper` and
the returned error, if any). -/
structure World where
  now : Date
  httpGet : String → Except String Response
  jsonUnmarshal : String → List (List String) × Option String

/-! ## Calendar arithmetic of the `time` package

`time.Now().AddDate(0, 0, -days).Format("20060102")` prints a calendar date;
the model keeps the calendar date of `time.Now()` and leaves out the clock
time and the time zone. `AddDate` is documented to normalise its result as
`time.Date` does: a day outside the month is carried into the neighbouring
months and years. The arithmetic is the exact proleptic Gregorian one. -/

/-- The function `isLeap` of package `time`. -/
def isLeap (year : Int) : Bool :=
  year % 4 = 0 && (year % 100 ≠ 0 || year % 400 = 0)

/-- The function `daysIn` of package `time`: the length of a month. -/
def daysIn (month : Nat) (year : Int) : Nat :=
  if month = 2 then (if isLeap year then 29 else 28)
  else if month = 4 ∨ month = 6 ∨ month = 9 ∨ month = 11 then 30
  else 31

/-- Normalisation of a day number that lies outside its month: a day below 1
borrows the length of the previous month, a day above the month's length
gives it up to the next month; at most `fuel` such steps are made. -/
def normDay : Nat → Int → Nat → Int → Date
  | 0, y, m, d => ⟨y, m, d.toNat⟩
  | fuel + 1, y, m, d =>
    if d < 1 then
      let y' := if m ≤ 1 then y - 1 else y
      let m' := if m ≤ 1 then 12 else m - 1
      normDay fuel y' m' (d + daysIn m' y')
    else if d > daysIn m y then
      let y' := if 12 ≤ m then y + 1 else y
      let m' := if 12 ≤ m then 1 else m + 1
      normDay fuel y' m' (d - daysIn m y)
    else ⟨y, m, d.toNat⟩

/-- The date of `t.AddDate(0, 0, days)`. Every step of `normDay` moves the
day by at least 28, so `|days| + 1` steps are enough. -/
def AddDate (t : Date) (days : Int) : Date :=
  normDay (days.natAbs + 1) t.year t.month (t.day + days)

/-- One decimal digit as a character. -/
def digitChar (n : Nat) : Char :=
  match n % 10 with
  | 0 => '0' | 1 => '1' | 2 => '2' | 3 => '3' | 4 => '4'
  | 5 => '5' | 6 => '6' | 7 => '7' | 8 => '8' | _ => '9'

/-- The decimal digits of a number, most significant first (`fuel` bounds the
number of digits after the first). -/
def decimal : Nat → Nat → List Char
  | 0, n => [digitChar n]
  | fuel + 1, n => if n < 10 then [digitChar n] else decimal fuel (n / 10) ++ [digitChar n]

/-- The function `appendInt` of package `time`: a minus sign for a negative
number, then its decimal digits padded with zeros on the left to `width`. -/
def appendInt (x : Int) (width : Nat) : List Char :=
  let digits := decimal x.natAbs x.natAbs
  (if x < 0 then ['-'] else []) ++ List.replicate (width - digits.length) '0' ++ digits

/-- The string of `t.Format("20060102")`: year on four digits, month and day on two. -/
def Format20060102 (t : Date) : String :=
  String.mk (appendInt t.year 4 ++ appendInt t.month 2 ++ appendInt t.day 2)

/-! ## The two retrieval strategies (main.go 119-200) -/

/-- The loop of main.go 147-156, the same as main.go 187-196: `skip` is the
flag of main.go 147, `out` the slice built so far. Indexing a row that is too
short panics with the index and the length of the row; `urls[1]` is evaluated
before `urls[2]`. -/
def rowLoop : Bool → List wurl → List (List String) → FetchResult
  | _, out, [] => FetchResult.ret out none
  | skip, out, urls :: rest =>
    if skip then
      rowLoop false out rest
    else
      match urls[1]? with
      | none => FetchResult.fault 1 urls.length
      | some date =>
        match urls[2]? with
        | none => FetchResult.fault 2 urls.length
        | some url => rowLoop false (out ++ [⟨date, url⟩]) rest

/-- The local `subsWildcard` of main.go 120-123 and 163-166. -/
def subsWildcard (noSubs : Bool) : String :=
  if noSubs then "" else "*."

/-- The argument of `http.Get` at main.go 129. -/
def boundedQueryURL (domain : String) (noSubs : Bool) (fromDate : String) : String :=
  "http://web.archive.org/cdx/search/cdx?url=" ++ subsWildcard noSubs ++ domain
    ++ "/*&output=json&collapse=urlkey&from=" ++ fromDate

/-- The argument of `http.Get` at main.go 169. -/
def allQueryURL (domain : String) (noSubs : Bool) : String :=
  "http://web.archive.org/cdx/search/cdx?url=" ++ subsWildcard noSubs ++ domain
    ++ "/*&output=json&collapse=urlkey"

/-- The function `getWaybackURLs` of main.go 119-160. The local `toDate` of
main.go 126 takes no part in the request. The error returned by
`json.Unmarshal` is assigned at main.go 143 and not read afterwards. -/
def getWaybackURLs (w : World) (domain : String) (noSubs : Bool) (days : Int) : FetchResult :=
  let fromDate := Format20060102 (AddDate w.now (-days))
  match w.httpGet (boundedQueryURL domain noSubs fromDate) with
  | Except.error err => FetchResult.ret [] (some err)
  | Except.ok res =>
    match res.body with
    | Except.error err => FetchResult.ret [] (some err)
    | Except.ok raw =>
      let wrapper := (w.jsonUnmarshal raw).1
      rowLoop true [] wrapper

/-- The function `getWaybackURLsAll` of main.go 162-200; `days` is not used.
The error returned by `json.Unmarshal` is assigned at main.go 183 and not read
afterwards. -/
def getWaybackURLsAll (w : World) (domain : String) (noSubs : Bool) (_days : Int) : FetchResult :=
  match w.httpGet (allQueryURL domain noSubs) with
  | Except.error err => FetchResult.ret [] (some err)
  | Except.ok res =>
    match res.body with
    | Except.error err => FetchResult.ret [] (some err)
    | Except.ok raw =>
      let wrapper := (w.jsonUnmarshal raw).1
      rowLoop true [] wrapper

/-! ## The orchestrator `main` (main.go 16-110) -/

/-- The type `fetchFn` of main.go 117. -/
abbrev fetchFn := String → Bool → Int → FetchResult

/-- The slice `fetchFns` built at main.go 61-69. -/
def fetchFns (w : World) (days : Int) : List fetchFn :=
  if days > 0 then
    [] ++ [getWaybackURLs w]
  else
    [] ++ [getWaybackURLsAll w]

/-- What one goroutine of main.go 79-91 sends on the channel: nothing when the
call returns an error, otherwise the records of the response that pass the
subdomain filter, in order. A panic of the call is passed on. -/
def producer (isSubdomain : String → String → Bool) (fetch : fetchFn)
    (domain : String) (noSubs : Bool) (days : Int) : List wurl × Option (Nat × Nat) :=
  match fetch domain noSubs days with
  | FetchResult.fault i n => ([], some (i, n))
  | FetchResult.ret _ (some _) => ([], none)
  | FetchResult.ret resp none =>
    (resp.filter (fun r => !(noSubs && isSubdomain r.url domain)), none)

/-- The records received from the channel `wurls` of one domain (main.go
73-97), followed by the panic that ended the program, if any. The goroutines
send in the order in which they are started; `fetchFns` never holds more than
one function, so that this is the only order there is. -/
def channelRecords (isSubdomain : String → String → Bool) (domain : String)
    (noSubs : Bool) (days : Int) : List fetchFn → List wurl × Option (Nat × Nat)
  | [] => ([], none)
  | fn :: fns =>
    match producer isSubdomain fn domain noSubs days with
    | (sent, some f) => (sent, some f)
    | (sent, none) =>
      let r := channelRecords isSubdomain domain noSubs days fns
      (sent ++ r.1, r.2)

/-- The outcome of a run: the arguments of the calls of `fmt.Println`, in
order, and the panic that ended the run, if any. -/
structure Run where
  printed : List String
  fault : Option (Nat × Nat)
  deriving DecidableEq

/-- The loop over the domains of main.go 71-108. A panic in a goroutine ends
the program: the domains that follow are not processed. -/
def domainLoop (isSubdomain : String → String → Bool) (fns : List fetchFn)
    (noSubs : Bool) (days : Int) : List String → Run
  | [] => ⟨[], none⟩
  | domain :: rest =>
    match channelRecords isSubdomain domain noSubs days fns with
    | (recs, some f) => ⟨consumerLoop emptySeen recs, some f⟩
    | (recs, none) =>
      let r := domainLoop isSubdomain fns noSubs days rest
      ⟨consumerLoop emptySeen recs ++ r.printed, r.fault⟩

/-- The loop of the get-versions mode, main.go 50-56; `getVersions` returns
the Go pair `([]string, error)`. -/
def versionsLoop (getVersions : String → List String × Option String) :
    List String → List String
  | [] => []
  | u :: rest =>
    match getVersions u with
    | (_, some _) => versionsLoop getVersions rest
    | (versions, none) => String.intercalate "\n" versions :: versionsLoop getVersions rest

/-- The flags of main.go 20-29. -/
structure Flags where
  days : Int
  noSubs : Bool
  getVersionsFlag : Bool

/-- The function `main` of main.go 16-110 after the input has been read into
`domains` (main.go 31-45). -/
def main (w : World) (isSubdomain : String → String → Bool)
    (getVersions : String → List String × Option String)
    (flags : Flags) (domains : List String) : Run :=
  if flags.getVersionsFlag then
    ⟨versionsLoop getVersions domains, none⟩
  else
    domainLoop isSubdomain (fetchFns w flags.days) flags.noSubs flags.days domains

/-- The bytes written to standard output by a sequence of `fmt.Println` calls
with one string argument each: every call writes its argument and a newline. -/
def stdoutText : List String → String
  | [] => ""
  | s :: rest => s ++ "\n" ++ stdoutText rest

/-! ## Reading a query back from a URL

The properties of the query are stated on its parameters; these definitions
read them from the URL string as RFC 3986 and the form encoding do: the fragment starts
at the first `#`, the query at the first `?` before it, parameters are
separated by `&` and a parameter is split at its first `=`. -/

/-- The pieces of a list between the occurrences of `c`. -/
def splitAt (c : Char) : List Char → List (List Char)
  | [] => [[]]
  | x :: xs =>
    if x = c then [] :: splitAt c xs
    else
      match splitAt c xs with
      | [] => [[x]]
      | p :: ps => (x :: p) :: ps

/-- The query component of a URL. -/
def queryOf (url : List Char) : List Char :=
  ((url.takeWhile (fun c => c ≠ '#')).dropWhile (fun c => c ≠ '?')).drop 1

/-- A parameter `key=value` split at its first `=`. -/
def keyValue (p : List Char) : String × String :=
  (String.mk (p.takeWhile (fun c => c ≠ '=')), String.mk ((p.dropWhile (fun c => c ≠ '=')).drop 1))

/-- The parameters of the query of a URL, in order. -/
def queryParams (url : String) : List (String × String) :=
  (splitAt '&' (queryOf url.data)).map keyValue

/-- The values that the query of a URL gives to the parameter `key`. -/
def paramValues (key : String) (url : String) : List String :=
  ((queryParams url).filter (fun kv => kv.1 = key)).map (fun kv => kv.2)

/-! ## Calendar notions used to state the date bound -/

/-- A date of the calendar: a month from 1 to 12 and a day of that month. -/
def validDate (t : Date) : Prop :=
  1 ≤ t.month ∧ t.month ≤ 12 ∧ 1 ≤ t.day ∧ t.day ≤ daysIn t.month t.year

instance (t : Date) : Decidable (validDate t) := by
  unfold validDate; infer_instance

/-- The day before a date, rolling over the start of a month and of a year. -/
def prevDay (t : Date) : Date :=
  if 1 < t.day then ⟨t.year, t.month, t.day - 1⟩
  else if 1 < t.month then ⟨t.year, t.month - 1, daysIn (t.month - 1) t.year⟩
  else ⟨t.year - 1, 12, 31⟩

/-- The date `n` days before a date. -/
def daysBefore (t : Date) : Nat → Date
  | 0 => t
  | n + 1 => prevDay (daysBefore t n)

/-- The number of days of the year that precede a month. -/
def daysBeforeMonth (month : Nat) (year : Int) : Int :=
  match month with
  | 1 => 0
  | 2 => 31
  | 3 => 59 + (if isLeap year then 1 else 0)
  | 4 => 90 + (if isLeap year then 1 else 0)
  | 5 => 120 + (if isLeap year then 1 else 0)
  | 6 => 151 + (if isLeap year then 1 else 0)
  | 7 => 181 + (if isLeap year then 1 else 0)
  | 8 => 212 + (if isLeap year then 1 else 0)
  | 9 => 243 + (if isLeap year then 1 else 0)
  | 10 => 273 + (if isLeap year then 1 else 0)
  | 11 => 304 + (if isLeap year then 1 else 0)
  | _ => 334 + (if isLeap year then 1 else 0)

/-- The count of the days from 1 January of year 1 to a date, that day
included: 365 days a year, one more every fourth year, except every hundredth,
but for every four-hundredth. -/
def dayCount (t : Date) : Int :=
  365 * (t.year - 1) + (t.year - 1) / 4 - (t.year - 1) / 100 + (t.year - 1) / 400
    + daysBeforeMonth t.month t.year + t.day

/-! ## What the get-versions mode is to print -/

/-- The snapshot URLs returned for the inputs whose resolution succeeds,
grouped by input in input order: the lines that the get-versions mode is to
write, one URL per line. -/
def snapshotLines (getVersions : String → List String × Option String) :
    List String → List String
  | [] => []
  | u :: rest =>
    match getVersions u with
    | (_, some _) => snapshotLines getVersions rest
    | (versions, none) => versions ++ snapshotLines getVersions rest

/-! ## Concrete worlds -/

/-- The decoded index response of two rows: the header row and one data row. -/
def sampleRows : List (List String) :=
  [["original", "timestamp", "original"],
   ["com,example)/", "20200101000000", "http://example.com/"]]

/-- The body of which `sampleRows` is the decoding. -/
def sampleBody : String :=
  "[[\"original\",\"timestamp\",\"original\"],[\"com,example)/\",\"20200101000000\",\"http://example.com/\"]]"

/-- A world in which every request is answered 200 with `sampleBody`. -/
def sampleWorld : World where
  now := ⟨2026, 11, 2⟩
  httpGet := fun _ => Except.ok ⟨200, Except.ok sampleBody⟩
  jsonUnmarshal := fun _ => (sampleRows, none)

/-- A body whose data row has two columns only. -/
def shortRowBody : String :=
  "[[\"urlkey\"],[\"com,example)/\",\"20200101000000\"]]"

/-- A world in which every request is answered 200 with `shortRowBody`. -/
def shortRowWorld : World where
  now := ⟨2026, 11, 2⟩
  httpGet := fun _ => Except.ok ⟨200, Except.ok shortRowBody⟩
  jsonUnmarshal := fun _ => ([["urlkey"], ["com,example)/", "20200101000000"]], none)

/-- A world in which every request is answered 404 with the body `[]`, which
decodes without error to the empty array. -/
def notFoundWorld : World where
  now := ⟨2026, 11, 2⟩
  httpGet := fun _ => Except.ok ⟨404, Except.ok "[]"⟩
  jsonUnmarshal := fun _ => ([], none)

/-- A world in which every request is answered 200 with a body that is not
JSON: the decoding fails and leaves `wrapper` empty. -/
def badJSONWorld : World where
  now := ⟨2026, 11, 2⟩
  httpGet := fun _ => Except.ok ⟨200, Except.ok "Service Unavailable"⟩
  jsonUnmarshal := fun _ => ([], some "invalid character S looking for beginning of value")

/-- A world in which every request is answered 200 and reading the body
fails. -/
def brokenBodyWorld : World where
  now := ⟨2026, 11, 2⟩
  httpGet := fun _ => Except.ok ⟨200, Except.error "unexpected EOF"⟩
  jsonUnmarshal := fun _ => ([], none)

/-- A world in which the request for `down.example` fails and every other
request is answered 200 with `sampleBody`. -/
def flakyWorld : World where
  now := ⟨2026, 11, 2⟩
  httpGet := fun u =>
    if u = allQueryURL "down.example" false then Except.error "connection refused"
    else Except.ok ⟨200, Except.ok sampleBody⟩
  jsonUnmarshal := fun _ => (sampleRows, none)

/-- A subdomain test that never holds, for the concrete runs. -/
def noSubdomain : String → String → Bool := fun _ _ => false

/-- A version resolver that succeeds with no snapshot. -/
def noVersions : String → List String × Option String := fun _ => ([], none)

/-- A version resolver that fails on `down.example` and returns two snapshots
for every other input. -/
def twoVersions : String → List String × Option String := fun u =>
  if u = "down.example" then ([], some "connection refused")
  else (["http://web.archive.org/web/20210101000000/" ++ u,
         "http://web.archive.org/web/20220101000000/" ++ u], none)

/-- A domain that holds neither of the characters that delimit the parameters
and the query of a URL, `&` and `#`. -/
def noQueryDelimiter (domain : String) : Prop :=
  '&' ∉ domain.data ∧ '#' ∉ domain.data

instance (domain : String) : Decidable (noQueryDelimiter domain) := by
  unfold noQueryDelimiter; infer_instance

/-- The world `w` with an `http.Get` that fails with the requested URL as its
message: the error returned by a fetch in it is the URL that the fetch
requests in `w`. -/
def echo (w : World) : World where
  now := w.now
  httpGet := fun u => Except.error u
  jsonUnmarshal := w.jsonUnmarshal

/-! ## Lemmas on the consumer loop -/

/-- A URL printed by the loop was not yet in the seen-set and belongs to a
received record. -/
theorem consumerLoop_mem (ws : List wurl) :
    ∀ (seen : SeenMap) (u : String),
      u ∈ consumerLoop seen ws ↔ (seen u = none ∧ u ∈ ws.map wurl.url) := by
  induction ws with
  | nil => intro seen u; simp [consumerLoop]
  | cons w ws ih =>
    intro seen u
    by_cases hs : (seen w.url).isSome
    · simp only [consumerLoop, hs, if_true, ih, List.map_cons, List.mem_cons]
      constructor
      · rintro ⟨h1, h2⟩; exact ⟨h1, Or.inr h2⟩
      · rintro ⟨h1, h2 | h2⟩
        · subst h2; simp [h1] at hs
        · exact ⟨h1, h2⟩
    · have hn : seen w.url = none := by
        cases h : seen w.url with
        | none => rfl
        | some b => simp [h] at hs
      simp only [consumerLoop, hs, Bool.false_eq_true, if_false, List.mem_cons, ih,
        List.map_cons, SeenMap.set]
      constructor
      · rintro (h | ⟨h1, h2⟩)
        · subst h; exact ⟨hn, Or.inl rfl⟩
        · by_cases hu : u = w.url
          · simp [hu] at h1
          · simp only [hu, if_false] at h1; exact ⟨h1, Or.inr h2⟩
      · rintro ⟨h1, h2 | h2⟩
        · exact Or.inl h2
        · by_cases hu : u = w.url
          · exact Or.inl hu
          · right; simp only [hu, if_false]; exact ⟨h1, h2⟩

/-- The printed list has no repetition, whatever the seen-set at the start. -/
theorem consumerLoop_nodup (ws : List wurl) :
    ∀ seen : SeenMap, (consumerLoop seen ws).Nodup := by
  induction ws with
  | nil => intro seen; simp [consumerLoop]
  | cons w ws ih =>
    intro seen
    by_cases hs : (seen w.url).isSome
    · simp only [consumerLoop, hs, if_true]; exact ih seen
    · simp only [consumerLoop, hs, Bool.false_eq_true, if_false, List.nodup_cons]
      refine ⟨?_, ih _⟩
      intro hmem
      have := ((consumerLoop_mem ws _ _).1 hmem).1
      simp [SeenMap.set] at this

theorem filter_isNone_filter_ne (seen : SeenMap) (u : String) (l : List String)
    (hs : (seen u).isSome = true) :
    (l.filter (fun v => v ≠ u)).filter (fun v => (seen v).isNone) =
      l.filter (fun v => (seen v).isNone) := by
  rw [List.filter_filter]
  apply List.filter_congr
  intro v _
  by_cases hv : v = u
  · subst hv
    cases h : seen v with
    | none => simp [h] at hs
    | some b => simp
  · simp [hv]

theorem consumerLoop_eq_filter (ws : List wurl) :
    ∀ seen : SeenMap,
      consumerLoop seen ws =
        (firstSeen (ws.map wurl.url)).filter (fun v => (seen v).isNone) := by
  induction ws with
  | nil => intro seen; simp [consumerLoop, firstSeen]
  | cons w ws ih =>
    intro seen
    by_cases hs : (seen w.url).isSome
    · have hn : (seen w.url).isNone = false := by
        cases h : seen w.url with
        | none => simp [h] at hs
        | some b => rfl
      simp only [consumerLoop, hs, if_true, List.map_cons, firstSeen]
      rw [List.filter_cons_of_neg (by simp [hn]), filter_isNone_filter_ne seen _ _ hs]
      exact ih seen
    · have hn : (seen w.url).isNone = true := by
        cases h : seen w.url with
        | none => rfl
        | some b => simp [h] at hs
      simp only [consumerLoop, hs, Bool.false_eq_true, if_false, List.map_cons, firstSeen]
      rw [List.filter_cons_of_pos (by simp [hn]), ih, List.filter_filter]
      congr 1
      apply List.filter_congr
      intro v _
      by_cases hv : v = w.url
      · simp [hv, SeenMap.set]
      · simp [hv, SeenMap.set]

theorem consumerLoop_snoc (pre : List wurl) (w : wurl) :
    ∀ seen : SeenMap,
      consumerLoop seen (pre ++ [w]) =
        if (seen w.url).isSome = true ∨ w.url ∈ pre.map wurl.url then consumerLoop seen pre
        else consumerLoop seen pre ++ [w.url] := by
  induction pre with
  | nil =>
    intro seen
    by_cases hs : (seen w.url).isSome <;> simp [consumerLoop, hs]
  | cons v pre ih =>
    intro seen
    by_cases hv : (seen v.url).isSome
    · have e1 : consumerLoop seen (v :: pre ++ [w]) = consumerLoop seen (pre ++ [w]) := by
        simp [consumerLoop, hv]
      have e2 : consumerLoop seen (v :: pre) = consumerLoop seen pre := by
        simp [consumerLoop, hv]
      rw [e1, e2, ih seen]
      by_cases hs : (seen w.url).isSome
      · simp [hs]
      · have hne : w.url ≠ v.url := by
          intro h; rw [h] at hs; exact hs hv
        simp [hs, hne]
    · have e1 : consumerLoop seen (v :: pre ++ [w]) =
          v.url :: consumerLoop (seen.set v.url) (pre ++ [w]) := by
        simp [consumerLoop, hv]
      have e2 : consumerLoop seen (v :: pre) = v.url :: consumerLoop (seen.set v.url) pre := by
        simp [consumerLoop, hv]
      rw [e1, e2, ih (seen.set v.url)]
      by_cases hwv : w.url = v.url
      · simp [hwv, SeenMap.set]
      · by_cases hs : (seen w.url).isSome
        · simp [hs, hwv, SeenMap.set]
        · by_cases hm : w.url ∈ pre.map wurl.url
          · simp only [hm, or_true, if_true, List.map_cons, List.mem_cons]
          · have hm2 : ¬ ∃ a ∈ pre, a.url = w.url := by
              simpa using hm
            simp [hs, hwv, hm2, SeenMap.set]

theorem firstSeen_sublist (l : List String) : (firstSeen l).Sublist l := by
  induction l with
  | nil => simp [firstSeen]
  | cons u us ih =>
    simp only [firstSeen]
    exact List.Sublist.cons₂ _ (List.Sublist.trans (List.filter_sublist _) ih)

/-- C1: whatever records arrive on the channel of a domain, the URLs printed
for that domain by the consumer loop contain no string twice; so it is for the
lines that the loop of `main` prints for one domain, whatever the strategies
return. -/
theorem printed_urls_nodup (recs : List wurl) :
    (consumerLoop emptySeen recs).Nodup
    ∧ (∀ (isSubdomain : String → String → Bool) (fns : List fetchFn) (noSubs : Bool)
        (days : Int) (domain : String),
        (domainLoop isSubdomain fns noSubs days [domain]).printed.Nodup) := by
  refine ⟨consumerLoop_nodup recs emptySeen, ?_⟩
  intro isSubdomain fns noSubs days domain
  simp only [domainLoop]
  rcases channelRecords isSubdomain domain noSubs days fns with ⟨sent, f⟩
  cases f with
  | none => simpa using consumerLoop_nodup sent emptySeen
  | some f => simpa using consumerLoop_nodup sent emptySeen

/-- C2: the URLs printed for a domain are the distinct URL strings of the
received records in first-seen order: the printed list is the list of first
occurrences, it has the same members as the stream and keeps their order, and
a record is skipped exactly when an earlier record has the same URL string
(dates play no part). -/
theorem printed_urls_first_seen (recs : List wurl) :
    consumerLoop emptySeen recs = firstSeen (recs.map wurl.url)
    ∧ (∀ u, u ∈ consumerLoop emptySeen recs ↔ u ∈ recs.map wurl.url)
    ∧ (consumerLoop emptySeen recs).Sublist (recs.map wurl.url)
    ∧ (∀ (pre : List wurl) (w : wurl),
        consumerLoop emptySeen (pre ++ [w]) =
          if w.url ∈ pre.map wurl.url then consumerLoop emptySeen pre
          else consumerLoop emptySeen pre ++ [w.url]) := by
  have h1 : consumerLoop emptySeen recs = firstSeen (recs.map wurl.url) := by
    rw [consumerLoop_eq_filter]
    simp [emptySeen]
  refine ⟨h1, ?_, ?_, ?_⟩
  · intro u
    rw [consumerLoop_mem]
    simp [emptySeen]
  · rw [h1]; exact firstSeen_sublist _
  · intro pre w
    rw [consumerLoop_snoc]
    simp [emptySeen]

/-! ## The row loop -/

/-- The column test of the row loop: column 1 is the date and column 2 the
URL of the record. -/
theorem rowLoop_false_ok (rows : List (List String)) :
    ∀ out : List wurl, (∀ row ∈ rows, 3 ≤ row.length) →
      ∃ recs, rowLoop false out rows = FetchResult.ret (out ++ recs) none
        ∧ List.Forall₂ (fun row r => row[1]? = some r.date ∧ row[2]? = some r.url) rows recs := by
  induction rows with
  | nil => intro out _; exact ⟨[], by simp [rowLoop], List.Forall₂.nil⟩
  | cons row rows ih =>
    intro out h
    have hrow : 3 ≤ row.length := h row (List.mem_cons_self _ _)
    obtain ⟨date, hd⟩ : ∃ d, row[1]? = some d :=
      ⟨row[1], List.getElem?_eq_getElem (by omega)⟩
    obtain ⟨url, hu⟩ : ∃ u, row[2]? = some u :=
      ⟨row[2], List.getElem?_eq_getElem (by omega)⟩
    obtain ⟨recs, hrec, hall⟩ := ih (out ++ [⟨date, url⟩])
      (fun r hr => h r (List.mem_cons_of_mem _ hr))
    refine ⟨⟨date, url⟩ :: recs, ?_, List.Forall₂.cons ⟨hd, hu⟩ hall⟩
    simp only [rowLoop, Bool.false_eq_true, if_false, hd, hu, hrec]
    simp

theorem rowLoop_false_fault (rows : List (List String)) :
    ∀ out : List wurl, (∃ row ∈ rows, row.length < 3) →
      ∃ i n, rowLoop false out rows = FetchResult.fault i n := by
  induction rows with
  | nil => intro out h; obtain ⟨r, hr, _⟩ := h; simp at hr
  | cons row rows ih =>
    intro out h
    cases hd : row[1]? with
    | none => exact ⟨1, row.length, by simp [rowLoop, hd]⟩
    | some date =>
      cases hu : row[2]? with
      | none => exact ⟨2, row.length, by simp [rowLoop, hd, hu]⟩
      | some url =>
        have hlen : 2 < row.length := by
          by_contra hcon
          have : row[2]? = none := List.getElem?_eq_none (by omega)
          simp [this] at hu
        obtain ⟨r, hr, hshort⟩ := h
        have hr2 : r ∈ rows := by
          rcases List.mem_cons.1 hr with h1 | h1
          · subst h1; omega
          · exact h1
        obtain ⟨i, n, hf⟩ := ih (out ++ [⟨date, url⟩]) ⟨r, hr2, hshort⟩
        exact ⟨i, n, by simp [rowLoop, hd, hu, hf]⟩

theorem rowLoop_true (out : List wurl) (rows : List (List String)) :
    rowLoop true out rows = rowLoop false out rows.tail := by
  cases rows with
  | nil => simp [rowLoop]
  | cons r rs => simp [rowLoop]

theorem getWaybackURLs_of_body (w : World) (domain : String) (noSubs : Bool) (days : Int)
    (res : Response) (raw : String)
    (hget : w.httpGet (boundedQueryURL domain noSubs (Format20060102 (AddDate w.now (-days))))
      = Except.ok res)
    (hbody : res.body = Except.ok raw) :
    getWaybackURLs w domain noSubs days = rowLoop false [] (w.jsonUnmarshal raw).1.tail := by
  simp only [getWaybackURLs, hget, hbody, rowLoop_true]

theorem getWaybackURLsAll_of_body (w : World) (domain : String) (noSubs : Bool) (days : Int)
    (res : Response) (raw : String)
    (hget : w.httpGet (allQueryURL domain noSubs) = Except.ok res)
    (hbody : res.body = Except.ok raw) :
    getWaybackURLsAll w domain noSubs days = rowLoop false [] (w.jsonUnmarshal raw).1.tail := by
  simp only [getWaybackURLsAll, hget, hbody, rowLoop_true]

theorem rowLoop_records (rows : List (List String)) (h : ∀ row ∈ rows.tail, 3 ≤ row.length) :
    ∃ out, rowLoop false [] rows.tail = FetchResult.ret out none
      ∧ List.Forall₂ (fun row r => row[1]? = some r.date ∧ row[2]? = some r.url) rows.tail out
      ∧ out.length = rows.length - 1 := by
  obtain ⟨recs, h1, h2⟩ := rowLoop_false_ok rows.tail [] h
  refine ⟨recs, by simpa using h1, h2, ?_⟩
  rw [← List.Forall₂.length_eq h2, List.length_tail]

/-- C3: when the body has been read and every row after the first of the
decoded response has at least three columns, `getWaybackURLs` and
`getWaybackURLsAll` return without error one record per row after the first,
in row order, whose date is column 1 and whose URL is column 2 of the row; a
response of n rows gives n - 1 records. -/
theorem fetch_returns_one_record_per_data_row (w : World) (domain : String) (noSubs : Bool)
    (days : Int) (res : Response) (raw : String)
    (hbody : res.body = Except.ok raw)
    (hrows : ∀ row ∈ (w.jsonUnmarshal raw).1.tail, 3 ≤ row.length) :
    (w.httpGet (boundedQueryURL domain noSubs (Format20060102 (AddDate w.now (-days))))
        = Except.ok res →
      ∃ out, getWaybackURLs w domain noSubs days = FetchResult.ret out none
        ∧ List.Forall₂ (fun row r => row[1]? = some r.date ∧ row[2]? = some r.url)
            (w.jsonUnmarshal raw).1.tail out
        ∧ out.length = (w.jsonUnmarshal raw).1.length - 1)
    ∧ (w.httpGet (allQueryURL domain noSubs) = Except.ok res →
      ∃ out, getWaybackURLsAll w domain noSubs days = FetchResult.ret out none
        ∧ List.Forall₂ (fun row r => row[1]? = some r.date ∧ row[2]? = some r.url)
            (w.jsonUnmarshal raw).1.tail out
        ∧ out.length = (w.jsonUnmarshal raw).1.length - 1) := by
  constructor
  · intro hget
    rw [getWaybackURLs_of_body w domain noSubs days res raw hget hbody]
    exact rowLoop_records _ hrows
  · intro hget
    rw [getWaybackURLsAll_of_body w domain noSubs days res raw hget hbody]
    exact rowLoop_records _ hrows

theorem rowLoop_fault_iff (rows : List (List String)) :
    ((∃ i n, rowLoop false [] rows.tail = FetchResult.fault i n)
        ↔ ∃ row ∈ rows.tail, row.length < 3)
    ∧ ((∃ out, rowLoop false [] rows.tail = FetchResult.ret out none)
        ↔ ∀ row ∈ rows.tail, 3 ≤ row.length) := by
  by_cases h : ∀ row ∈ rows.tail, 3 ≤ row.length
  · obtain ⟨recs, h1, _⟩ := rowLoop_false_ok rows.tail [] h
    constructor
    · constructor
      · rintro ⟨i, n, hf⟩; rw [h1] at hf; cases hf
      · rintro ⟨row, hr, hs⟩; have := h row hr; omega
    · exact ⟨fun _ => h, fun _ => ⟨_, h1⟩⟩
  · have h' : ∃ row ∈ rows.tail, row.length < 3 := by
      push_neg at h; exact h
    obtain ⟨i, n, hf⟩ := rowLoop_false_fault rows.tail [] h'
    constructor
    · exact ⟨fun _ => h', fun _ => ⟨i, n, hf⟩⟩
    · constructor
      · rintro ⟨out, ho⟩; rw [hf] at ho; cases ho
      · intro hall; exact absurd hall h

/-- C10: once the body has been read, the row indexing of `getWaybackURLs`
and of `getWaybackURLsAll` panics with an index out of range exactly when some
row after the first has fewer than three columns, and the call returns a
record list without error exactly when every row after the first has at least
three columns; the first row is not indexed. -/
theorem fetch_faults_iff_short_row (w : World) (domain : String) (noSubs : Bool)
    (days : Int) (res : Response) (raw : String)
    (hbody : res.body = Except.ok raw) :
    (w.httpGet (boundedQueryURL domain noSubs (Format20060102 (AddDate w.now (-days))))
        = Except.ok res →
      ((∃ i n, getWaybackURLs w domain noSubs days = FetchResult.fault i n)
          ↔ ∃ row ∈ (w.jsonUnmarshal raw).1.tail, row.length < 3)
      ∧ ((∃ out, getWaybackURLs w domain noSubs days = FetchResult.ret out none)
          ↔ ∀ row ∈ (w.jsonUnmarshal raw).1.tail, 3 ≤ row.length))
    ∧ (w.httpGet (allQueryURL domain noSubs) = Except.ok res →
      ((∃ i n, getWaybackURLsAll w domain noSubs days = FetchResult.fault i n)
          ↔ ∃ row ∈ (w.jsonUnmarshal raw).1.tail, row.length < 3)
      ∧ ((∃ out, getWaybackURLsAll w domain noSubs days = FetchResult.ret out none)
          ↔ ∀ row ∈ (w.jsonUnmarshal raw).1.tail, 3 ≤ row.length)) := by
  constructor
  · intro hget
    rw [getWaybackURLs_of_body w domain noSubs days res raw hget hbody]
    exact rowLoop_fault_iff _
  · intro hget
    rw [getWaybackURLsAll_of_body w domain noSubs days res raw hget hbody]
    exact rowLoop_fault_iff _

/-- Witness of C3: the mocked response of a header row and one data row gives
exactly the record of date `20200101000000` and URL `http://example.com/`. -/
theorem fetch_returns_one_record_per_data_row_witness :
    (∀ row ∈ (sampleWorld.jsonUnmarshal sampleBody).1.tail, 3 ≤ row.length)
    ∧ (∃ out, getWaybackURLs sampleWorld "example.com" false 7 = FetchResult.ret out none
        ∧ List.Forall₂ (fun row r => row[1]? = some r.date ∧ row[2]? = some r.url)
            (sampleWorld.jsonUnmarshal sampleBody).1.tail out
        ∧ out.length = (sampleWorld.jsonUnmarshal sampleBody).1.length - 1)
    ∧ getWaybackURLs sampleWorld "example.com" false 7 =
        FetchResult.ret [⟨"20200101000000", "http://example.com/"⟩] none
    ∧ getWaybackURLsAll sampleWorld "example.com" false 7 =
        FetchResult.ret [⟨"20200101000000", "http://example.com/"⟩] none :=
  ⟨by decide,
   (fetch_returns_one_record_per_data_row sampleWorld "example.com" false 7
      ⟨200, Except.ok sampleBody⟩ sampleBody rfl (by decide)).1 rfl,
   by decide, by decide⟩

/-- Witness of C10: a data row of two columns makes both calls panic at
index 2 of a slice of length 2. -/
theorem fetch_faults_iff_short_row_witness :
    ((∃ i n, getWaybackURLs shortRowWorld "example.com" false 7 = FetchResult.fault i n)
        ↔ ∃ row ∈ (shortRowWorld.jsonUnmarshal shortRowBody).1.tail, row.length < 3)
    ∧ getWaybackURLs shortRowWorld "example.com" false 7 = FetchResult.fault 2 2
    ∧ getWaybackURLsAll shortRowWorld "example.com" false 7 = FetchResult.fault 2 2 :=
  ⟨((fetch_faults_iff_short_row shortRowWorld "example.com" false 7
      ⟨200, Except.ok shortRowBody⟩ shortRowBody rfl).1 rfl).1,
   by decide, by decide⟩

/-- C4, refuted as stated: a response of status 404 whose body decodes, and a
response whose body is not JSON, both make `getWaybackURLs` and
`getWaybackURLsAll` return an empty record list with a nil error. -/
theorem fetch_succeeds_on_404_and_on_bad_json :
    (∀ u, ∃ body, notFoundWorld.httpGet u = Except.ok ⟨404, body⟩)
    ∧ getWaybackURLs notFoundWorld "example.com" false 7 = FetchResult.ret [] none
    ∧ getWaybackURLsAll notFoundWorld "example.com" false 7 = FetchResult.ret [] none
    ∧ (∀ raw, (badJSONWorld.jsonUnmarshal raw).2 ≠ none)
    ∧ getWaybackURLs badJSONWorld "example.com" false 7 = FetchResult.ret [] none
    ∧ getWaybackURLsAll badJSONWorld "example.com" false 7 = FetchResult.ret [] none :=
  ⟨fun _ => ⟨_, rfl⟩, by decide, by decide, fun _ => by simp [badJSONWorld], by decide,
   by decide⟩

theorem rowLoop_no_error (rows : List (List String)) :
    ∀ (skip : Bool) (acc out : List wurl) (err : String),
      rowLoop skip acc rows ≠ FetchResult.ret out (some err) := by
  induction rows with
  | nil => intro skip acc out err; simp [rowLoop]
  | cons row rows ih =>
    intro skip acc out err
    cases skip with
    | true => simpa [rowLoop] using ih false acc out err
    | false =>
      cases hd : row[1]? with
      | none => simp [rowLoop, hd]
      | some d =>
        cases hu : row[2]? with
        | none => simp [rowLoop, hd, hu]
        | some u => simpa [rowLoop, hd, hu] using ih false _ out err

/-- C4 as amended: a failed request and a failed read of the body make
`getWaybackURLs` and `getWaybackURLsAll` return that error; the status code of
the response plays no part: a response whose body is read and decodes without
error never gives an error value, whatever its status. -/
theorem fetch_error_on_transport_failure (w : World) (domain : String) (noSubs : Bool)
    (days : Int) :
    (∀ err, w.httpGet (boundedQueryURL domain noSubs (Format20060102 (AddDate w.now (-days))))
        = Except.error err →
      getWaybackURLs w domain noSubs days = FetchResult.ret [] (some err))
    ∧ (∀ res err,
        w.httpGet (boundedQueryURL domain noSubs (Format20060102 (AddDate w.now (-days))))
          = Except.ok res →
        res.body = Except.error err →
        getWaybackURLs w domain noSubs days = FetchResult.ret [] (some err))
    ∧ (∀ res raw,
        w.httpGet (boundedQueryURL domain noSubs (Format20060102 (AddDate w.now (-days))))
          = Except.ok res →
        res.body = Except.ok raw → (w.jsonUnmarshal raw).2 = none →
        ∀ out err, getWaybackURLs w domain noSubs days ≠ FetchResult.ret out (some err))
    ∧ (∀ err, w.httpGet (allQueryURL domain noSubs) = Except.error err →
      getWaybackURLsAll w domain noSubs days = FetchResult.ret [] (some err))
    ∧ (∀ res err, w.httpGet (allQueryURL domain noSubs) = Except.ok res →
        res.body = Except.error err →
        getWaybackURLsAll w domain noSubs days = FetchResult.ret [] (some err))
    ∧ (∀ res raw, w.httpGet (allQueryURL domain noSubs) = Except.ok res →
        res.body = Except.ok raw → (w.jsonUnmarshal raw).2 = none →
        ∀ out err, getWaybackURLsAll w domain noSubs days ≠ FetchResult.ret out (some err)) := by
  refine ⟨?_, ?_, ?_, ?_, ?_, ?_⟩
  · intro err h; simp only [getWaybackURLs, h]
  · intro res err h hb; simp only [getWaybackURLs, h, hb]
  · intro res raw h hb _ out err
    simp only [getWaybackURLs, h, hb]
    exact rowLoop_no_error _ _ _ _ _
  · intro err h; simp only [getWaybackURLsAll, h]
  · intro res err h hb; simp only [getWaybackURLsAll, h, hb]
  · intro res raw h hb _ out err
    simp only [getWaybackURLsAll, h, hb]
    exact rowLoop_no_error _ _ _ _ _

/-- Witness of C4 as amended: a refused connection and a body that cannot be
read are returned as errors; a 404 whose body decodes is not an error. -/
theorem fetch_error_on_transport_failure_witness :
    getWaybackURLsAll flakyWorld "down.example" false 0
        = FetchResult.ret [] (some "connection refused")
    ∧ getWaybackURLs brokenBodyWorld "example.com" false 7
        = FetchResult.ret [] (some "unexpected EOF")
    ∧ (∀ out err, getWaybackURLs notFoundWorld "example.com" false 7
        ≠ FetchResult.ret out (some err)) :=
  ⟨(fetch_error_on_transport_failure flakyWorld "down.example" false 0).2.2.2.1 _ rfl,
   (fetch_error_on_transport_failure brokenBodyWorld "example.com" false 7).2.1
      ⟨200, Except.error "unexpected EOF"⟩ _ rfl rfl,
   (fetch_error_on_transport_failure notFoundWorld "example.com" false 7).2.2.1
      ⟨404, Except.ok "[]"⟩ "[]" rfl rfl rfl⟩

/-! ## The loop over the domains -/

theorem channelRecords_of_error (isSubdomain : String → String → Bool) (domain : String)
    (noSubs : Bool) (days : Int) (fns : List fetchFn)
    (herr : ∀ fn ∈ fns, ∃ out e, fn domain noSubs days = FetchResult.ret out (some e)) :
    channelRecords isSubdomain domain noSubs days fns = ([], none) := by
  induction fns with
  | nil => rfl
  | cons fn fns ih =>
    obtain ⟨out, e, h⟩ := herr fn (List.mem_cons_self _ _)
    have hp : producer isSubdomain fn domain noSubs days = ([], none) := by
      simp [producer, h]
    simp only [channelRecords, hp, ih (fun f hf => herr f (List.mem_cons_of_mem _ hf))]
    rfl

theorem domainLoop_cons_of_error (isSubdomain : String → String → Bool) (fns : List fetchFn)
    (noSubs : Bool) (days : Int) (domain : String) (rest : List String)
    (h : channelRecords isSubdomain domain noSubs days fns = ([], none)) :
    domainLoop isSubdomain fns noSubs days (domain :: rest) =
      domainLoop isSubdomain fns noSubs days rest := by
  simp [domainLoop, h, consumerLoop]

theorem domainLoop_append_congr (isSubdomain : String → String → Bool) (fns : List fetchFn)
    (noSubs : Bool) (days : Int) (pre a b : List String)
    (h : domainLoop isSubdomain fns noSubs days a = domainLoop isSubdomain fns noSubs days b) :
    domainLoop isSubdomain fns noSubs days (pre ++ a) =
      domainLoop isSubdomain fns noSubs days (pre ++ b) := by
  induction pre with
  | nil => simpa using h
  | cons p pre ih =>
    have e : ∀ l, domainLoop isSubdomain fns noSubs days (p :: l) =
        match channelRecords isSubdomain p noSubs days fns with
        | (recs, some f) => ⟨consumerLoop emptySeen recs, some f⟩
        | (recs, none) =>
          ⟨consumerLoop emptySeen recs ++ (domainLoop isSubdomain fns noSubs days l).printed,
            (domainLoop isSubdomain fns noSubs days l).fault⟩ := fun _ => rfl
    rw [List.cons_append, List.cons_append, e, e, ih]

/-- C5: in the normal mode, a domain whose strategy call returns an error
prints nothing, and the run on a list of domains that contains it is the run
on the list without it: the domains before and after it are processed as if
it were absent, in input order. -/
theorem failing_domain_is_skipped (w : World) (isSubdomain : String → String → Bool)
    (getVersions : String → List String × Option String) (flags : Flags)
    (pre post : List String) (d : String)
    (hmode : flags.getVersionsFlag = false)
    (herr : ∀ fn ∈ fetchFns w flags.days,
      ∃ out e, fn d flags.noSubs flags.days = FetchResult.ret out (some e)) :
    main w isSubdomain getVersions flags [d] = ⟨[], none⟩
    ∧ main w isSubdomain getVersions flags (pre ++ d :: post) =
        main w isSubdomain getVersions flags (pre ++ post) := by
  have hc := channelRecords_of_error isSubdomain d flags.noSubs flags.days _ herr
  simp only [main, hmode, Bool.false_eq_true, if_false]
  constructor
  · rw [domainLoop_cons_of_error _ _ _ _ _ _ hc]; rfl
  · exact domainLoop_append_congr _ _ _ _ _ _ _ (domainLoop_cons_of_error _ _ _ _ _ _ hc)

/-- Witness of C5: the refused request for `down.example` prints nothing and
the two other domains print their URL as they do without it. -/
theorem failing_domain_is_skipped_witness :
    (∀ fn ∈ fetchFns flakyWorld 0,
      ∃ out e, fn "down.example" false 0 = FetchResult.ret out (some e))
    ∧ main flakyWorld noSubdomain noVersions ⟨0, false, false⟩
        (["example.com"] ++ "down.example" :: ["example.org"]) =
      main flakyWorld noSubdomain noVersions ⟨0, false, false⟩ (["example.com"] ++ ["example.org"])
    ∧ main flakyWorld noSubdomain noVersions ⟨0, false, false⟩
        ["example.com", "down.example", "example.org"] =
      ⟨["http://example.com/", "http://example.com/"], none⟩ :=
  have h : ∀ fn ∈ fetchFns flakyWorld 0,
      ∃ out e, fn "down.example" false 0 = FetchResult.ret out (some e) := by
    intro fn hfn
    simp only [fetchFns, gt_iff_lt, lt_self_iff_false, if_false, List.nil_append,
      List.mem_singleton] at hfn
    subst hfn
    exact ⟨[], "connection refused", rfl⟩
  ⟨h,
   (failing_domain_is_skipped flakyWorld noSubdomain noVersions ⟨0, false, false⟩
      ["example.com"] ["example.org"] "down.example" rfl h).2,
   by decide⟩

/-! ## The get-versions mode -/

theorem stdoutText_append (a b : List String) :
    stdoutText (a ++ b) = stdoutText a ++ stdoutText b := by
  induction a with
  | nil => simp [stdoutText]
  | cons s a ih => simp [stdoutText, ih, String.append_assoc]

theorem intercalate_go_newline (vs : List String) :
    ∀ acc : String,
      String.intercalate.go acc "\n" vs ++ "\n" = acc ++ "\n" ++ stdoutText vs := by
  induction vs with
  | nil => intro acc; simp [String.intercalate.go, stdoutText]
  | cons v vs ih =>
    intro acc
    simp [String.intercalate.go, stdoutText, ih, String.append_assoc]

/-- When every input that resolves has at least one snapshot, the bytes
written in the get-versions mode are the snapshot URLs of the inputs that
resolve, one per line, grouped by input in input order. -/
theorem versions_output_of_nonempty (getVersions : String → List String × Option String)
    (inputs : List String)
    (h : ∀ u ∈ inputs, (getVersions u).2 = none → (getVersions u).1 ≠ []) :
    stdoutText (versionsLoop getVersions inputs) =
      stdoutText (snapshotLines getVersions inputs) := by
  induction inputs with
  | nil => rfl
  | cons u rest ih =>
    have ih' := ih (fun v hv => h v (List.mem_cons_of_mem _ hv))
    have hu := h u (List.mem_cons_self _ _)
    rcases hg : getVersions u with ⟨vs, e⟩
    rw [hg] at hu
    cases e with
    | some e => simp only [versionsLoop, snapshotLines, hg, ih']
    | none =>
      simp only [versionsLoop, snapshotLines, hg, stdoutText, stdoutText_append, ih']
      congr 1
      cases vs with
      | nil => exact absurd rfl (hu rfl)
      | cons v vs =>
        simp only [String.intercalate, stdoutText]
        rw [intercalate_go_newline]

/-- Two inputs with two snapshots each and one input that fails: four lines,
the snapshots of the first input and then those of the last. -/
theorem versions_output_of_nonempty_witness :
    stdoutText (versionsLoop twoVersions ["a.example", "down.example", "b.example"]) =
      stdoutText (snapshotLines twoVersions ["a.example", "down.example", "b.example"])
    ∧ snapshotLines twoVersions ["a.example", "down.example", "b.example"] =
      ["http://web.archive.org/web/20210101000000/a.example",
       "http://web.archive.org/web/20220101000000/a.example",
       "http://web.archive.org/web/20210101000000/b.example",
       "http://web.archive.org/web/20220101000000/b.example"] :=
  ⟨versions_output_of_nonempty twoVersions ["a.example", "down.example", "b.example"]
    (by decide), by decide⟩

/-- C9 at an input that resolves to no snapshot: the get-versions mode writes
one empty line for it, where the snapshot URLs to be written are none. -/
theorem versions_mode_prints_blank_line :
    noVersions "http://example.com/" = ([], none)
    ∧ (main sampleWorld noSubdomain noVersions ⟨0, false, true⟩ ["http://example.com/"]).printed
        = [""]
    ∧ stdoutText
        (main sampleWorld noSubdomain noVersions ⟨0, false, true⟩ ["http://example.com/"]).printed
        = "\n"
    ∧ snapshotLines noVersions ["http://example.com/"] = []
    ∧ stdoutText (snapshotLines noVersions ["http://example.com/"]) = "" :=
  ⟨rfl, by decide, by decide, by decide, by decide⟩

/-! ## Reading the parameters of the two query URLs -/

theorem splitAt_of_not_mem (c : Char) (a : List Char) (h : c ∉ a) : splitAt c a = [a] := by
  induction a with
  | nil => rfl
  | cons x a ih =>
    have hx : x ≠ c := fun e => h (e ▸ List.mem_cons_self _ _)
    have ha : c ∉ a := fun hm => h (List.mem_cons_of_mem _ hm)
    simp [splitAt, hx, ih ha]

theorem splitAt_append_sep (c : Char) (a b : List Char) (h : c ∉ a) :
    splitAt c (a ++ c :: b) = a :: splitAt c b := by
  induction a with
  | nil => simp [splitAt]
  | cons x a ih =>
    have hx : x ≠ c := fun e => h (e ▸ List.mem_cons_self _ _)
    have ha : c ∉ a := fun hm => h (List.mem_cons_of_mem _ hm)
    simp [splitAt, hx, ih ha]

theorem takeWhile_of_all (p : Char → Bool) (a : List Char) (h : ∀ x ∈ a, p x = true) :
    a.takeWhile p = a := by
  induction a with
  | nil => rfl
  | cons x a ih =>
    rw [List.takeWhile_cons, h x (List.mem_cons_self _ _), if_pos rfl,
      ih (fun y hy => h y (List.mem_cons_of_mem _ hy))]

theorem takeWhile_append_stop (p : Char → Bool) (a b : List Char) (c : Char)
    (h : ∀ x ∈ a, p x = true) (hc : p c = false) :
    (a ++ c :: b).takeWhile p = a := by
  induction a with
  | nil => rw [List.nil_append, List.takeWhile_cons, hc]; rfl
  | cons x a ih =>
    rw [List.cons_append, List.takeWhile_cons, h x (List.mem_cons_self _ _), if_pos rfl,
      ih (fun y hy => h y (List.mem_cons_of_mem _ hy))]

theorem dropWhile_append_stop (p : Char → Bool) (a b : List Char) (c : Char)
    (h : ∀ x ∈ a, p x = true) (hc : p c = false) :
    (a ++ c :: b).dropWhile p = c :: b := by
  induction a with
  | nil => rw [List.nil_append, List.dropWhile_cons, hc]; rfl
  | cons x a ih =>
    rw [List.cons_append, List.dropWhile_cons, h x (List.mem_cons_self _ _), if_pos rfl,
      ih (fun y hy => h y (List.mem_cons_of_mem _ hy))]

theorem ne_of_not_mem (c : Char) (a : List Char) (h : c ∉ a) :
    ∀ x ∈ a, (fun y : Char => decide (y ≠ c)) x = true := by
  intro x hx
  have : x ≠ c := fun e => h (e ▸ hx)
  simpa using this

theorem keyValue_of_sep (k v : List Char) (h : '=' ∉ k) :
    keyValue (k ++ '=' :: v) = (String.mk k, String.mk v) := by
  unfold keyValue
  rw [takeWhile_append_stop _ k v '=' (ne_of_not_mem _ _ h) (by decide),
    dropWhile_append_stop _ k v '=' (ne_of_not_mem _ _ h) (by decide)]
  rfl

theorem subsWildcard_no_delimiter (noSubs : Bool) :
    '&' ∉ (subsWildcard noSubs).data ∧ '#' ∉ (subsWildcard noSubs).data
      ∧ '?' ∉ (subsWildcard noSubs).data := by
  cases noSubs <;> decide

/-- The query of a URL made of the endpoint, a pattern and further text. -/
theorem queryOf_endpoint (rest : List Char) (h : '#' ∉ rest) :
    queryOf ("http://web.archive.org/cdx/search/cdx?url=".data ++ rest) = "url=".data ++ rest := by
  have hsplit : "http://web.archive.org/cdx/search/cdx?url=".data ++ rest =
      "http://web.archive.org/cdx/search/cdx".data ++ '?' :: ("url=".data ++ rest) := by
    simp
  have hno : '#' ∉ "http://web.archive.org/cdx/search/cdx?url=".data ++ rest := by
    intro hm
    rcases List.mem_append.1 hm with h1 | h1
    · revert h1; decide
    · exact h h1
  unfold queryOf
  rw [takeWhile_of_all _ _ (ne_of_not_mem _ _ hno), hsplit,
    dropWhile_append_stop _ _ _ '?' (ne_of_not_mem _ _ (by decide)) (by decide)]
  rfl

theorem splitAt_three (a b c : List Char) (ha : '&' ∉ a) (hb : '&' ∉ b) (hc : '&' ∉ c) :
    splitAt '&' (a ++ '&' :: (b ++ '&' :: c)) = [a, b, c] := by
  rw [splitAt_append_sep _ _ _ ha, splitAt_append_sep _ _ _ hb, splitAt_of_not_mem _ _ hc]

theorem splitAt_four (a b c d : List Char) (ha : '&' ∉ a) (hb : '&' ∉ b) (hc : '&' ∉ c)
    (hd : '&' ∉ d) :
    splitAt '&' (a ++ '&' :: (b ++ '&' :: (c ++ '&' :: d))) = [a, b, c, d] := by
  rw [splitAt_append_sep _ _ _ ha, splitAt_append_sep _ _ _ hb, splitAt_append_sep _ _ _ hc,
    splitAt_of_not_mem _ _ hd]

/-- The parameters of the URL requested by `getWaybackURLsAll`, for a domain
without `&` and `#`. -/
theorem queryParams_allQueryURL (domain : String) (noSubs : Bool)
    (hd : noQueryDelimiter domain) :
    queryParams (allQueryURL domain noSubs) =
      [("url", subsWildcard noSubs ++ domain ++ "/*"), ("output", "json"),
       ("collapse", "urlkey")] := by
  obtain ⟨hs1, hs2, _⟩ := subsWildcard_no_delimiter noSubs
  have hdata : (allQueryURL domain noSubs).data =
      "http://web.archive.org/cdx/search/cdx?url=".data ++
        (((subsWildcard noSubs).data ++ domain.data ++ "/*".data) ++
          "&output=json&collapse=urlkey".data) := by
    simp [allQueryURL, String.data_append, List.append_assoc]
  have hq : queryOf (allQueryURL domain noSubs).data =
      ("url".data ++ '=' :: ((subsWildcard noSubs).data ++ domain.data ++ "/*".data)) ++
        '&' :: (("output".data ++ '=' :: "json".data) ++
        '&' :: ("collapse".data ++ '=' :: "urlkey".data)) := by
    rw [hdata, queryOf_endpoint]
    · simp [List.append_assoc]
    · simp only [List.mem_append, not_or]
      exact ⟨⟨⟨hs2, hd.2⟩, by decide⟩, by decide⟩
  have hamp : '&' ∉ "url".data ++ '=' :: ((subsWildcard noSubs).data ++ domain.data ++ "/*".data) := by
    simp only [List.mem_append, List.mem_cons, not_or]
    exact ⟨by decide, by decide, ⟨hs1, hd.1⟩, by decide⟩
  unfold queryParams
  rw [hq, splitAt_three _ _ _ hamp (by decide) (by decide)]
  simp only [List.map_cons, List.map_nil]
  rw [keyValue_of_sep _ _ (by decide), keyValue_of_sep _ _ (by decide),
    keyValue_of_sep _ _ (by decide)]
  rfl

/-- The parameters of the URL requested by `getWaybackURLs`, for a domain and
a date text without `&` and `#`. -/
theorem queryParams_boundedQueryURL (domain : String) (noSubs : Bool) (fromDate : String)
    (hd : noQueryDelimiter domain) (hf : noQueryDelimiter fromDate) :
    queryParams (boundedQueryURL domain noSubs fromDate) =
      [("url", subsWildcard noSubs ++ domain ++ "/*"), ("output", "json"),
       ("collapse", "urlkey"), ("from", fromDate)] := by
  obtain ⟨hs1, hs2, _⟩ := subsWildcard_no_delimiter noSubs
  have hdata : (boundedQueryURL domain noSubs fromDate).data =
      "http://web.archive.org/cdx/search/cdx?url=".data ++
        (((subsWildcard noSubs).data ++ domain.data ++ "/*".data) ++
          "&output=json&collapse=urlkey&from=".data ++ fromDate.data) := by
    simp [boundedQueryURL, String.data_append, List.append_assoc]
  have hq : queryOf (boundedQueryURL domain noSubs fromDate).data =
      ("url".data ++ '=' :: ((subsWildcard noSubs).data ++ domain.data ++ "/*".data)) ++
        '&' :: (("output".data ++ '=' :: "json".data) ++
        '&' :: (("collapse".data ++ '=' :: "urlkey".data) ++
        '&' :: ("from".data ++ '=' :: fromDate.data))) := by
    rw [hdata, queryOf_endpoint]
    · simp [List.append_assoc]
    · simp only [List.mem_append, not_or]
      exact ⟨⟨⟨⟨hs2, hd.2⟩, by decide⟩, by decide⟩, hf.2⟩
  have hamp : '&' ∉ "url".data ++ '=' :: ((subsWildcard noSubs).data ++ domain.data ++ "/*".data) := by
    simp only [List.mem_append, List.mem_cons, not_or]
    exact ⟨by decide, by decide, ⟨hs1, hd.1⟩, by decide⟩
  have hamp2 : '&' ∉ "from".data ++ '=' :: fromDate.data := by
    simp only [List.mem_append, List.mem_cons, not_or]
    exact ⟨by decide, by decide, hf.1⟩
  unfold queryParams
  rw [hq, splitAt_four _ _ _ _ hamp (by decide) (by decide) hamp2]
  simp only [List.map_cons, List.map_nil]
  rw [keyValue_of_sep _ _ (by decide), keyValue_of_sep _ _ (by decide),
    keyValue_of_sep _ _ (by decide), keyValue_of_sep _ _ (by decide)]
  rfl

/-! ## The calendar -/

theorem daysIn_bounds (m : Nat) (y : Int) : 28 ≤ daysIn m y ∧ daysIn m y ≤ 31 := by
  unfold daysIn
  split
  · split <;> omega
  · split <;> omega

theorem daysIn_twelve (y : Int) : daysIn 12 y = 31 := by
  simp [daysIn]

theorem normDay_in_range (f : Nat) (y : Int) (m : Nat) (d : Int)
    (h1 : 1 ≤ d) (h2 : d ≤ daysIn m y) : normDay (f + 1) y m d = ⟨y, m, d.toNat⟩ := by
  have a : ¬ d < 1 := by omega
  have b : ¬ d > daysIn m y := by omega
  simp only [normDay, a, b, if_false]

/-- One more day back is the previous day of the result. -/
theorem normDay_pred (f : Nat) :
    ∀ (y : Int) (m : Nat) (d : Int), 1 ≤ m → m ≤ 12 → d ≤ daysIn m y → 1 - d ≤ 28 * f →
      normDay (f + 2) y m (d - 1) = prevDay (normDay (f + 1) y m d) := by
  induction f with
  | zero =>
    intro y m d hm1 hm2 hd hf
    have hd1 : 1 ≤ d := by omega
    rw [normDay_in_range 0 y m d hd1 hd]
    by_cases h2 : 2 ≤ d
    · rw [normDay_in_range 1 y m (d - 1) (by omega) (by omega)]
      have : 1 < d.toNat := by omega
      simp only [prevDay, this, if_true]
      congr 1
      omega
    · have hd0 : d = 1 := by omega
      subst hd0
      have hb := daysIn_bounds (if m ≤ 1 then 12 else m - 1) (if m ≤ 1 then y - 1 else y)
      have e : normDay 2 y m (1 - 1) =
          normDay 1 (if m ≤ 1 then y - 1 else y) (if m ≤ 1 then 12 else m - 1)
            ((1 - 1) + daysIn (if m ≤ 1 then 12 else m - 1) (if m ≤ 1 then y - 1 else y)) := by
        simp [normDay]
      rw [e, normDay_in_range 0 _ _ _ (by omega) (by omega)]
      by_cases hm : m ≤ 1
      · have : ¬ 1 < m := by omega
        simp [prevDay, hm, this, daysIn_twelve]
      · have : 1 < m := by omega
        simp [prevDay, hm, this]
  | succ f ih =>
    intro y m d hm1 hm2 hd hf
    by_cases hd1 : 1 ≤ d
    · rw [normDay_in_range (f + 1) y m d hd1 hd]
      by_cases h2 : 2 ≤ d
      · rw [normDay_in_range (f + 2) y m (d - 1) (by omega) (by omega)]
        have : 1 < d.toNat := by omega
        simp only [prevDay, this, if_true]
        congr 1
        omega
      · have hd0 : d = 1 := by omega
        subst hd0
        have hb := daysIn_bounds (if m ≤ 1 then 12 else m - 1) (if m ≤ 1 then y - 1 else y)
        have e : normDay (f + 1 + 2) y m (1 - 1) =
            normDay (f + 1 + 1) (if m ≤ 1 then y - 1 else y) (if m ≤ 1 then 12 else m - 1)
              ((1 - 1) + daysIn (if m ≤ 1 then 12 else m - 1) (if m ≤ 1 then y - 1 else y)) := by
          simp [normDay]
        rw [e, normDay_in_range (f + 1) _ _ _ (by omega) (by omega)]
        by_cases hm : m ≤ 1
        · have : ¬ 1 < m := by omega
          simp [prevDay, hm, this, daysIn_twelve]
        · have : 1 < m := by omega
          simp [prevDay, hm, this]
    · have hlt : d < 1 := by omega
      have hlt2 : d - 1 < 1 := by omega
      have hb := daysIn_bounds (if m ≤ 1 then 12 else m - 1) (if m ≤ 1 then y - 1 else y)
      have e1 : normDay (f + 1 + 2) y m (d - 1) =
          normDay (f + 2) (if m ≤ 1 then y - 1 else y) (if m ≤ 1 then 12 else m - 1)
            ((d + daysIn (if m ≤ 1 then 12 else m - 1) (if m ≤ 1 then y - 1 else y)) - 1) := by
        have : normDay (f + 1 + 2) y m (d - 1) =
            normDay (f + 2) (if m ≤ 1 then y - 1 else y) (if m ≤ 1 then 12 else m - 1)
              ((d - 1) + daysIn (if m ≤ 1 then 12 else m - 1) (if m ≤ 1 then y - 1 else y)) := by
          simp only [normDay, hlt2, if_true]
        rw [this]
        congr 1
        omega
      have e2 : normDay (f + 1 + 1) y m d =
          normDay (f + 1) (if m ≤ 1 then y - 1 else y) (if m ≤ 1 then 12 else m - 1)
            (d + daysIn (if m ≤ 1 then 12 else m - 1) (if m ≤ 1 then y - 1 else y)) := by
        simp only [normDay, hlt, if_true]
      rw [e1, e2]
      apply ih
      · split <;> omega
      · split <;> omega
      · omega
      · omega

/-- On a date of the calendar, `AddDate(0, 0, -n)` is the date `n` days before. -/
theorem AddDate_neg (t : Date) (ht : validDate t) (n : Nat) :
    AddDate t (-(n : Int)) = daysBefore t n := by
  obtain ⟨hm1, hm2, hd1, hd2⟩ := ht
  have key : ∀ k : Nat, normDay (k + 1) t.year t.month (t.day - k) = daysBefore t k := by
    intro k
    induction k with
    | zero =>
      have := normDay_in_range 0 t.year t.month t.day (by omega) (by omega)
      simpa [daysBefore] using this
    | succ k ih =>
      have := normDay_pred k t.year t.month (t.day - k) hm1 hm2 (by omega) (by omega)
      simp only [daysBefore, ← ih, ← this]
      congr 1
      push_cast
      omega
  have hn : (-(n : Int)).natAbs = n := by omega
  unfold AddDate
  rw [hn]
  have := key n
  rw [← this]
  congr 1

/-- The normalisation at the ends of February, of a year and of a century. -/
theorem AddDate_examples :
    AddDate ⟨2024, 3, 1⟩ (-1) = ⟨2024, 2, 29⟩
    ∧ AddDate ⟨2023, 3, 1⟩ (-1) = ⟨2023, 2, 28⟩
    ∧ AddDate ⟨2000, 3, 1⟩ (-1) = ⟨2000, 2, 29⟩
    ∧ AddDate ⟨1900, 3, 1⟩ (-1) = ⟨1900, 2, 28⟩
    ∧ AddDate ⟨2026, 1, 1⟩ (-1) = ⟨2025, 12, 31⟩
    ∧ AddDate ⟨2024, 12, 31⟩ (-366) = ⟨2023, 12, 31⟩
    ∧ AddDate ⟨2026, 11, 2⟩ (-30) = ⟨2026, 10, 3⟩
    ∧ AddDate ⟨2026, 10, 26⟩ 7 = ⟨2026, 11, 2⟩ := by
  decide

theorem prevDay_valid (t : Date) (ht : validDate t) : validDate (prevDay t) := by
  obtain ⟨hm1, hm2, hd1, hd2⟩ := ht
  unfold prevDay
  split
  · exact ⟨hm1, hm2, by simp only; omega, by simp only; omega⟩
  · split
    · have hb := daysIn_bounds (t.month - 1) t.year
      exact ⟨by simp only; omega, by simp only; omega, by simp only; omega, by simp only; omega⟩
    · refine ⟨by simp only; omega, by simp only; omega, by simp only; omega, ?_⟩
      simp only [daysIn_twelve]; omega

theorem daysBefore_valid (t : Date) (ht : validDate t) (n : Nat) :
    validDate (daysBefore t n) := by
  induction n with
  | zero => exact ht
  | succ n ih => exact prevDay_valid _ ih

theorem isLeap_iff (y : Int) :
    isLeap y = true ↔ (y % 4 = 0 ∧ (y % 100 ≠ 0 ∨ y % 400 = 0)) := by
  simp [isLeap]

/-- The previous day is one day earlier on the count of days. -/
theorem dayCount_prevDay (t : Date) (ht : validDate t) :
    dayCount (prevDay t) = dayCount t - 1 := by
  obtain ⟨hm1, hm2, hd1, hd2⟩ := ht
  obtain ⟨y, m, d⟩ := t
  simp only at hm1 hm2 hd1 hd2
  unfold prevDay
  by_cases h1 : 1 < d
  · simp only [h1, if_true, dayCount]
    push_cast [Nat.cast_sub (Nat.le_of_lt h1)]
    omega
  · have hd : d = 1 := by omega
    subst hd
    by_cases h2 : 1 < m
    · simp only [h2, if_true, lt_self_iff_false, if_false, dayCount]
      have hl := isLeap_iff y
      interval_cases m <;> simp [daysBeforeMonth, daysIn] <;> split <;> omega
    · have hm : m = 1 := by omega
      subst hm
      simp only [lt_self_iff_false, if_false, dayCount, daysBeforeMonth]
      have hl := isLeap_iff (y - 1)
      by_cases hleap : isLeap (y - 1) = true
      · have := hl.1 hleap
        simp only [hleap, if_true]
        push_cast
        omega
      · have : ¬ ((y - 1) % 4 = 0 ∧ ((y - 1) % 100 ≠ 0 ∨ (y - 1) % 400 = 0)) :=
          fun h => hleap (hl.2 h)
        simp only [hleap, if_false]
        push_cast
        omega

theorem dayCount_daysBefore (t : Date) (ht : validDate t) (n : Nat) :
    dayCount (daysBefore t n) = dayCount t - n := by
  induction n with
  | zero => simp [daysBefore]
  | succ n ih =>
    simp only [daysBefore]
    rw [dayCount_prevDay _ (daysBefore_valid t ht n), ih]
    push_cast
    omega

/-! ## The text of a formatted date -/

theorem digitChar_no_delimiter (n : Nat) : digitChar n ≠ '&' ∧ digitChar n ≠ '#' := by
  unfold digitChar
  split <;> decide

theorem decimal_no_delimiter (f : Nat) :
    ∀ n : Nat, ∀ c ∈ decimal f n, c ≠ '&' ∧ c ≠ '#' := by
  induction f with
  | zero =>
    intro n c hc
    simp only [decimal, List.mem_singleton] at hc
    subst hc; exact digitChar_no_delimiter n
  | succ f ih =>
    intro n c hc
    unfold decimal at hc
    split at hc
    · simp only [List.mem_singleton] at hc
      subst hc; exact digitChar_no_delimiter n
    · rcases List.mem_append.1 hc with h | h
      · exact ih _ c h
      · simp only [List.mem_singleton] at h
        subst h; exact digitChar_no_delimiter n

theorem appendInt_no_delimiter (x : Int) (width : Nat) :
    ∀ c ∈ appendInt x width, c ≠ '&' ∧ c ≠ '#' := by
  intro c hc
  unfold appendInt at hc
  simp only [List.mem_append] at hc
  rcases hc with (h | h) | h
  · split at h
    · simp only [List.mem_singleton] at h
      subst h; decide
    · simp at h
  · have := (List.mem_replicate.1 h).2
    subst this; decide
  · exact decimal_no_delimiter _ _ c h

theorem Format20060102_no_delimiter (t : Date) : noQueryDelimiter (Format20060102 t) := by
  have h : ∀ c ∈ (Format20060102 t).data, c ≠ '&' ∧ c ≠ '#' := by
    intro c hc
    simp only [Format20060102, List.mem_append] at hc
    rcases hc with (h | h) | h <;> exact appendInt_no_delimiter _ _ c h
  exact ⟨fun hm => (h _ hm).1 rfl, fun hm => (h _ hm).2 rfl⟩

theorem decimal_one (f n : Nat) (h : n < 10) : decimal f n = [digitChar n] := by
  cases f with
  | zero => rfl
  | succ f => simp [decimal, h]

theorem decimal_succ (f n : Nat) (h : ¬ n < 10) :
    decimal (f + 1) n = decimal f (n / 10) ++ [digitChar n] := by
  simp [decimal, h]

theorem decimal_two (f n : Nat) (h1 : 10 ≤ n) (h2 : n < 100) :
    decimal (f + 1) n = [digitChar (n / 10), digitChar n] := by
  rw [decimal_succ f n (by omega), decimal_one f (n / 10) (by omega)]
  rfl

theorem decimal_three (f n : Nat) (h1 : 100 ≤ n) (h2 : n < 1000) :
    decimal (f + 2) n = [digitChar (n / 100), digitChar (n / 10), digitChar n] := by
  rw [decimal_succ (f + 1) n (by omega), decimal_two f (n / 10) (by omega) (by omega)]
  have : n / 10 / 10 = n / 100 := by omega
  rw [this]
  rfl

theorem decimal_four (f n : Nat) (h1 : 1000 ≤ n) (h2 : n < 10000) :
    decimal (f + 3) n =
      [digitChar (n / 1000), digitChar (n / 100), digitChar (n / 10), digitChar n] := by
  rw [decimal_succ (f + 2) n (by omega), decimal_three f (n / 10) (by omega) (by omega)]
  have e1 : n / 10 / 100 = n / 1000 := by omega
  have e2 : n / 10 / 10 = n / 100 := by omega
  rw [e1, e2]
  rfl

theorem digitChar_zero_of_eq (k : Nat) (h : k = 0) : digitChar k = '0' := by
  subst h; rfl

theorem appendInt_two (n : Nat) (h : n < 100) :
    appendInt (n : Int) 2 = [digitChar (n / 10), digitChar n] := by
  have hs : ¬ ((n : Int) < 0) := by omega
  have hn : (n : Int).natAbs = n := by omega
  unfold appendInt
  simp only [hs, if_false, hn, List.nil_append]
  by_cases h1 : n < 10
  · rw [decimal_one n n h1, digitChar_zero_of_eq (n / 10) (by omega)]
    rfl
  · obtain ⟨f, hf⟩ : ∃ f, n = f + 1 := ⟨n - 1, by omega⟩
    have := decimal_two f n (by omega) h
    rw [← hf] at this
    rw [this]
    rfl

theorem appendInt_four (n : Nat) (h : n < 10000) :
    appendInt (n : Int) 4 =
      [digitChar (n / 1000), digitChar (n / 100), digitChar (n / 10), digitChar n] := by
  have hs : ¬ ((n : Int) < 0) := by omega
  have hn : (n : Int).natAbs = n := by omega
  unfold appendInt
  simp only [hs, if_false, hn, List.nil_append]
  by_cases h1 : n < 10
  · rw [decimal_one n n h1, digitChar_zero_of_eq (n / 1000) (by omega),
      digitChar_zero_of_eq (n / 100) (by omega), digitChar_zero_of_eq (n / 10) (by omega)]
    rfl
  · by_cases h2 : n < 100
    · obtain ⟨f, hf⟩ : ∃ f, n = f + 1 := ⟨n - 1, by omega⟩
      have := decimal_two f n (by omega) h2
      rw [← hf] at this
      rw [this, digitChar_zero_of_eq (n / 1000) (by omega),
        digitChar_zero_of_eq (n / 100) (by omega)]
      rfl
    · by_cases h3 : n < 1000
      · obtain ⟨f, hf⟩ : ∃ f, n = f + 2 := ⟨n - 2, by omega⟩
        have := decimal_three f n (by omega) h3
        rw [← hf] at this
        rw [this, digitChar_zero_of_eq (n / 1000) (by omega)]
        rfl
      · obtain ⟨f, hf⟩ : ∃ f, n = f + 3 := ⟨n - 3, by omega⟩
        have := decimal_four f n (by omega) h
        rw [← hf] at this
        rw [this]
        rfl

/-- For a year from 0 to 9999, the formatted date is the eight digits
YYYYMMDD. -/
theorem Format20060102_digits (t : Date) (ht : validDate t)
    (hy0 : 0 ≤ t.year) (hy1 : t.year ≤ 9999) :
    Format20060102 t = String.mk
      [digitChar (t.year.toNat / 1000), digitChar (t.year.toNat / 100),
       digitChar (t.year.toNat / 10), digitChar t.year.toNat,
       digitChar (t.month / 10), digitChar t.month,
       digitChar (t.day / 10), digitChar t.day] := by
  obtain ⟨_, hm2, _, hd2⟩ := ht
  have hb := daysIn_bounds t.month t.year
  have hy : t.year = (t.year.toNat : Int) := by omega
  have e : appendInt t.year 4 =
      [digitChar (t.year.toNat / 1000), digitChar (t.year.toNat / 100),
       digitChar (t.year.toNat / 10), digitChar t.year.toNat] := by
    have := appendInt_four t.year.toNat (by omega)
    rwa [← hy] at this
  unfold Format20060102
  rw [appendInt_two t.month (by omega), appendInt_two t.day (by omega), e]
  rfl

/-! ## The query of the two strategies -/

theorem getWaybackURLs_echo (w : World) (domain : String) (noSubs : Bool) (days : Int) :
    getWaybackURLs (echo w) domain noSubs days =
      FetchResult.ret []
        (some (boundedQueryURL domain noSubs (Format20060102 (AddDate w.now (-days))))) := rfl

theorem getWaybackURLsAll_echo (w : World) (domain : String) (noSubs : Bool) (days : Int) :
    getWaybackURLsAll (echo w) domain noSubs days =
      FetchResult.ret [] (some (allQueryURL domain noSubs)) := rfl

theorem subsWildcard_pattern (domain : String) (noSubs : Bool) :
    subsWildcard noSubs ++ domain ++ "/*" =
      if noSubs then domain ++ "/*" else "*." ++ domain ++ "/*" := by
  cases noSubs
  · rfl
  · simp [subsWildcard]

theorem splitAt_ne_nil (c : Char) (a : List Char) : splitAt c a ≠ [] := by
  cases a with
  | nil => simp [splitAt]
  | cons x a =>
    unfold splitAt
    split
    · simp
    · split <;> simp

theorem splitAt_append (c : Char) (a b : List Char) :
    splitAt c (a ++ c :: b) = splitAt c a ++ splitAt c b := by
  induction a with
  | nil => simp [splitAt]
  | cons x a ih =>
    by_cases hx : x = c
    · simp [splitAt, hx, ih]
    · have hne := splitAt_ne_nil c a
      rcases hs : splitAt c a with _ | ⟨p, ps⟩
      · exact absurd hs hne
      · simp [splitAt, hx, ih, hs]

theorem takeWhile_append_some (p : Char → Bool) (a b : List Char)
    (h : ∃ x ∈ a, p x = false) : (a ++ b).takeWhile p = a.takeWhile p := by
  induction a with
  | nil => obtain ⟨x, hx, _⟩ := h; simp at hx
  | cons y a ih =>
    rw [List.cons_append, List.takeWhile_cons, List.takeWhile_cons]
    cases hy : p y with
    | false => simp
    | true =>
      obtain ⟨x, hx, hpx⟩ := h
      have hxa : x ∈ a := by
        rcases List.mem_cons.1 hx with e | e
        · subst e; rw [hy] at hpx; cases hpx
        · exact e
      simp only [if_true]
      rw [ih ⟨x, hxa, hpx⟩]

theorem values_append (key : String) (l s : List (List Char))
    (hs : ((s.map keyValue).filter (fun kv => kv.1 = key)).map (fun kv => kv.2) = []) :
    (((l ++ s).map keyValue).filter (fun kv => kv.1 = key)).map (fun kv => kv.2) =
      ((l.map keyValue).filter (fun kv => kv.1 = key)).map (fun kv => kv.2) := by
  rw [List.map_append, List.filter_append, List.map_append, hs, List.append_nil]

/-- The text that `getWaybackURLsAll` writes after the pattern adds no `from`
parameter to the query, whatever the domain. -/
theorem allQueryURL_adds_no_from (domain : String) (noSubs : Bool) :
    paramValues "from" (allQueryURL domain noSubs) =
      paramValues "from"
        ("http://web.archive.org/cdx/search/cdx?url=" ++ subsWildcard noSubs ++ domain ++ "/*") := by
  have hall : (allQueryURL domain noSubs).data =
      "http://web.archive.org/cdx/search/cdx?url=".data ++
        ((subsWildcard noSubs).data ++ domain.data ++ "/*".data) ++
          '&' :: "output=json&collapse=urlkey".data := by
    simp [allQueryURL, String.data_append, List.append_assoc]
  have hpre : ("http://web.archive.org/cdx/search/cdx?url=" ++ subsWildcard noSubs ++ domain
      ++ "/*").data =
      "http://web.archive.org/cdx/search/cdx?url=".data ++
        ((subsWildcard noSubs).data ++ domain.data ++ "/*".data) := by
    simp [String.data_append, List.append_assoc]
  by_cases hx : '#' ∈ (subsWildcard noSubs).data ++ domain.data ++ "/*".data
  · have hq : queryOf (allQueryURL domain noSubs).data =
        queryOf ("http://web.archive.org/cdx/search/cdx?url=" ++ subsWildcard noSubs ++ domain
          ++ "/*").data := by
      unfold queryOf
      rw [hall, hpre, takeWhile_append_some]
      exact ⟨'#', List.mem_append_right _ hx, by decide⟩
    simp only [paramValues, queryParams, hq]
  · have h1 : queryOf (allQueryURL domain noSubs).data =
        ("url=".data ++ ((subsWildcard noSubs).data ++ domain.data ++ "/*".data)) ++
          '&' :: ("output=json".data ++ '&' :: "collapse=urlkey".data) := by
      rw [hall, List.append_assoc, queryOf_endpoint]
      · simp [List.append_assoc]
      · intro hm
        rcases List.mem_append.1 hm with h | h
        · exact hx h
        · revert h; decide
    have h2 : queryOf ("http://web.archive.org/cdx/search/cdx?url=" ++ subsWildcard noSubs
        ++ domain ++ "/*").data =
        "url=".data ++ ((subsWildcard noSubs).data ++ domain.data ++ "/*".data) := by
      rw [hpre, queryOf_endpoint _ hx]
    unfold paramValues queryParams
    rw [h1, h2, splitAt_append '&'
      ("url=".data ++ ((subsWildcard noSubs).data ++ domain.data ++ "/*".data))
      ("output=json".data ++ '&' :: "collapse=urlkey".data)]
    exact values_append _ _ _ (by decide)

end Waybackurls
